import Mathlib

/-!
Shallow embedding of `dune/istl/paamg/twolevelmethod.hh` (Dune ISTL,
algebraic two-level method).  The scalar field type (`field_type`, a
template parameter of the C++ code) is modelled as an arbitrary
commutative ring `R` with decidable equality; vectors are `List R`, the
aggregates map is `List (Option ℕ)` (an entry `some a` assigns the fine
unknown to aggregate `a`, `none` marks a skipped unknown with no
aggregate).  External collaborators of the header (the transfer
routines, the Galerkin product, the smoothing helper and the recursive
AMG solver) are not part of the source file; they are modelled from the
specification where the claims need them.  Concrete instances for
witnesses use `R = ℤ`.
-/

set_option linter.unusedVariables false

namespace TwoLevel

/-- Outcome of an operation of the embedded code: a normal result, a
failed defensive assertion (a C `assert` firing), or unguarded undefined
behaviour (e.g. dereferencing a null `shared_ptr`). -/
inductive Outcome (α : Type) where
  | ok : α → Outcome α
  | assertionFailure : Outcome α
  | undefinedBehaviour : Outcome α
deriving DecidableEq

variable (R : Type) [CommRing R] [DecidableEq R]

/-- The aggregation criterion configuring `AggregationLevelTransferPolicy`.
Only the prolongation damping factor is read by the policy itself
(`criterion_.getProlongationDampingFactor()` in `createCoarseLevelSystem`);
the remaining fields are consumed opaquely by the external aggregation
procedure and are not modelled. -/
structure Criterion where
  prolongationDampingFactor : R
deriving DecidableEq

/-- `getProlongationDampingFactor` accessor of the criterion. -/
def Criterion.getProlongationDampingFactor (c : Criterion R) : R :=
  c.prolongationDampingFactor

/-- The fine level operator: an assembled linear operator exposing its
sparse matrix via `getmat()`; the matrix is modelled densely as a list of
rows. -/
structure FineOperator where
  mat : List (List R)
deriving DecidableEq

/-- A coarse level sparse matrix with explicit row count `N` and column
count `M` (as stored by `BCRSMatrix`) and its entries. -/
structure CoarseMat where
  rowCount : ℕ
  colCount : ℕ
  rows : List (List R)
deriving DecidableEq

variable {R}

/-- Row count accessor, `matrix.N()` in the source. -/
def CoarseMat.N (m : CoarseMat R) : ℕ := m.rowCount

/-- Column count accessor, `matrix.M()` in the source. -/
def CoarseMat.M (m : CoarseMat R) : ℕ := m.colCount

/-- Entry `i j` of a fine matrix given as a list of rows. -/
def matEntry (mat : List (List R)) (i j : ℕ) : R :=
  (mat.getD i []).getD j 0

/-- Sum over the fine unknowns of aggregate `a` of the entries of `fine`,
pairing each fine unknown with its aggregate via the aggregates map. -/
def aggregateSum (agg : List (Option ℕ)) (fine : List R) (a : ℕ) : R :=
  ((agg.zip fine).filter (fun p => p.1 == some a)).foldr (fun p s => p.2 + s) 0

/-- Modelled from the spec: the Galerkin triple-product builder
(`GalerkinProduct::build`/`calculate` of `galerkin.hh`, an external
collaborator not in the source file).  Per the spec it produces the
coarse matrix of size `numAggregates × numAggregates` with entry
`(I, J)` the sum of the fine entries `(i, j)` over the fine unknowns `i`
of aggregate `I` and `j` of aggregate `J` (restriction = sum within an
aggregate, prolongation = constant interpolation). -/
def galerkinProduct (mat : List (List R)) (agg : List (Option ℕ))
    (numAgg : ℕ) : CoarseMat R :=
  { rowCount := numAgg
    colCount := numAgg
    rows := (List.range numAgg).map (fun bigI =>
      (List.range numAgg).map (fun bigJ =>
        ((List.range agg.length).filter (fun i => agg.getD i none == some bigI)).foldr
          (fun i s =>
            (((List.range agg.length).filter (fun j => agg.getD j none == some bigJ)).foldr
              (fun j t => matEntry mat i j + t) 0) + s) 0)) }

/-- Modelled from the spec: `Transfer::restrictVector` (`transfer.hh`, an
external collaborator not in the source file).  Per the spec, for each
aggregate the restricted value is the sum of the fine residual components
over the unknowns belonging to that aggregate; the result is written into
the coarse vector, whose size (`numAgg`) is fixed by the caller. -/
def restrictVector (agg : List (Option ℕ)) (numAgg : ℕ)
    (fine : List R) : List R :=
  (List.range numAgg).map (fun a => aggregateSum agg fine a)

/-- Modelled from the spec: `Transfer::prolongateVector` (`transfer.hh`,
an external collaborator not in the source file).  Per the spec, for each
fine unknown belonging to a non-skipped aggregate, `damp × coarse[aggregate]`
is added to the corresponding entry of the fine vector; skipped unknowns
(no aggregate) receive no correction. -/
def prolongateVector (agg : List (Option ℕ)) (coarse : List R)
    (fine : List R) (damp : R) : List R :=
  List.zipWith
    (fun ai xi =>
      match ai with
      | some a => xi + damp * coarse.getD a 0
      | none => xi)
    agg fine

variable (R)

/-- State of an `AggregationLevelTransferPolicy` object, including the
fields inherited from `LevelTransferPolicy` (`rhs_`, `lhs_`, `operator_`).
`aggregatesMap_`, `matrix_` and `operator_` are `shared_ptr`s, null until
`createCoarseLevelSystem` sets them; `prolongDamp_` is likewise only
assigned there (its initial value is indeterminate in the C++ object and
fixed to `0` here). -/
structure AggregationLevelTransferPolicy where
  criterion : Criterion R
  prolongDamp : R
  aggregatesMap : Option (List (Option ℕ))
  matrix : Option (CoarseMat R)
  coarseOp : Option (CoarseMat R)
  lhs : List R
  rhs : List R
deriving DecidableEq

variable {R}

/-- The constructor `AggregationLevelTransferPolicy(crit)`: stores the
criterion; all pointer members are null, the vectors empty. -/
def AggregationLevelTransferPolicy.init (crit : Criterion R) :
    AggregationLevelTransferPolicy R :=
  { criterion := crit
    prolongDamp := 0
    aggregatesMap := none
    matrix := none
    coarseOp := none
    lhs := []
    rhs := [] }

/-- Result of the external aggregation and renumbering collaborators
(`AggregatesMap::buildAggregates` plus the renumbering coarsener), which
the source consumes as a black box: the vertex→aggregate assignment and
the renumbered contiguous aggregate count.  Modelled from the spec
(§2, §4.2); `createCoarseLevelSystem` takes their result as an input. -/
structure AggregationResult where
  map : List (Option ℕ)
  count : ℕ
deriving DecidableEq

/-- `AggregationLevelTransferPolicy::createCoarseLevelSystem`: reads the
damping factor from the criterion, builds the coarse matrix via the
Galerkin product from the fine matrix and the (renumbered) aggregates
map, resizes `lhs_` to the coarse matrix column count and `rhs_` to its
row count, and wraps the matrix in the coarse operator. -/
def AggregationLevelTransferPolicy.createCoarseLevelSystem
    (pol : AggregationLevelTransferPolicy R) (fineOperator : FineOperator R)
    (aggResult : AggregationResult) : AggregationLevelTransferPolicy R :=
  let m := galerkinProduct fineOperator.mat aggResult.map aggResult.count
  { pol with
    prolongDamp := pol.criterion.getProlongationDampingFactor
    aggregatesMap := some aggResult.map
    matrix := some m
    coarseOp := some m
    lhs := List.replicate m.M 0
    rhs := List.replicate m.N 0 }

/-- `AggregationLevelTransferPolicy::moveToCoarseLevel`: restricts the
fine residual into `rhs_` and assigns `lhs_ = 0` (every entry zeroed,
length kept).  The body dereferences `*aggregatesMap_`; before
`createCoarseLevelSystem` that pointer is null, and no assertion guards
it, so the call is undefined behaviour. -/
def AggregationLevelTransferPolicy.moveToCoarseLevel
    (pol : AggregationLevelTransferPolicy R) (fineRhs : List R) :
    Outcome (AggregationLevelTransferPolicy R) :=
  match pol.aggregatesMap with
  | none => Outcome.undefinedBehaviour
  | some agg =>
      Outcome.ok
        { pol with
          rhs := restrictVector agg pol.rhs.length fineRhs
          lhs := pol.lhs.map (fun _ => 0) }

/-- `AggregationLevelTransferPolicy::moveToFineLevel`: prolongates `lhs_`
with damping `prolongDamp_` and accumulates it into the caller-supplied
fine vector, which is returned updated; the policy state itself is only
read.  The body dereferences `*aggregatesMap_`; before
`createCoarseLevelSystem` that pointer is null, and no assertion guards
it, so the call is undefined behaviour. -/
def AggregationLevelTransferPolicy.moveToFineLevel
    (pol : AggregationLevelTransferPolicy R) (fineLhs : List R) :
    Outcome (List R) :=
  match pol.aggregatesMap with
  | none => Outcome.undefinedBehaviour
  | some agg =>
      Outcome.ok (prolongateVector agg pol.lhs fineLhs pol.prolongDamp)

variable (R)

/-- Modelled from the spec: `InverseOperatorResult` (`solver.hh`, an
external collaborator not in the source file), the convergence
diagnostics record a solver's `apply` is meant to fill for the caller. -/
structure InverseOperatorResult where
  iterations : ℕ
  defectReduction : R
  converged : Bool
deriving DecidableEq

end TwoLevel

/-- Events observed on the wrapped recursive AMG solver: its one-time
setup `pre`, one application `apply`, and its teardown `post` (recorded
with the iterate it is given). -/
inductive TwoLevel.AMGEvent (R : Type) where
  | preCall : AMGEvent R
  | applyCall : AMGEvent R
  | postCall : List R → AMGEvent R
deriving DecidableEq

namespace TwoLevel

variable {R : Type} [CommRing R] [DecidableEq R]

/-- Recognizer for the setup event. -/
def AMGEvent.isPre : AMGEvent R → Bool
  | .preCall => true
  | _ => false

/-- Recognizer for the application event. -/
def AMGEvent.isApply : AMGEvent R → Bool
  | .applyCall => true
  | _ => false

/-- Recognizer for the teardown event. -/
def AMGEvent.isPost : AMGEvent R → Bool
  | .postCall _ => true
  | _ => false

variable (R)

/-- Mutable state of `OneStepAMGCoarseSolverPolicy::AMGInverseOperator`:
the `first_` flag and the `x_` scratch copy (a `shared_ptr`, null until
the first `apply`).  The wrapped AMG object `amg_` is a black box; its
`pre` and `apply` phases are passed as function parameters where needed,
and the events issued to it are recorded in traces. -/
structure AMGInverseOperator where
  first_ : Bool
  x_ : Option (List R)
deriving DecidableEq

/-- Result of one `AMGInverseOperator::apply` call: the updated handle
state, the updated iterate `x` and right hand side `b`, the `res`
argument as left on return, and the trace of events issued to the
wrapped AMG. -/
structure AMGApplyOut where
  state : AMGInverseOperator R
  x : List R
  b : List R
  res : InverseOperatorResult R
  events : List (AMGEvent R)
deriving DecidableEq

variable {R}

/-- The constructor `AMGInverseOperator(amg)`: `first_` is true and the
scratch copy null. -/
def AMGInverseOperator.mk0 : AMGInverseOperator R :=
  { first_ := true, x_ := none }

/-- `AMGInverseOperator::apply(x, b, reduction, res)`: on the first call
it runs `amg_->pre(x, b)`, clears `first_` and captures `x_` as a copy of
the iterate at that moment (after `pre` has run); every call then performs
exactly one `amg_->apply(x, b)`.  The `reduction` argument is never read
and `res` is never written.  `amgPre` and `amgApply` model the wrapped
AMG's phases as black-box maps of `(x, b)`. -/
def AMGInverseOperator.apply
    (amgPre amgApply : List R → List R → List R × List R)
    (s : AMGInverseOperator R) (x b : List R) (reduction : R)
    (res : InverseOperatorResult R) : AMGApplyOut R :=
  if s.first_ then
    let xb := amgPre x b
    let s1 : AMGInverseOperator R := { first_ := false, x_ := some xb.1 }
    let xb2 := amgApply xb.1 xb.2
    { state := s1, x := xb2.1, b := xb2.2, res := res
      events := [AMGEvent.preCall, AMGEvent.applyCall] }
  else
    let xb2 := amgApply x b
    { state := s, x := xb2.1, b := xb2.2, res := res
      events := [AMGEvent.applyCall] }

/-- The `apply(x, b, res)` overload: delegates to the four-argument
overload with the fixed default reduction (`1e-8` in the source, a fixed
scalar constant whose value the four-argument overload ignores). -/
def AMGInverseOperator.applyDefault
    (amgPre amgApply : List R → List R → List R × List R)
    (defaultRed : R) (s : AMGInverseOperator R) (x b : List R)
    (res : InverseOperatorResult R) : AMGApplyOut R :=
  AMGInverseOperator.apply amgPre amgApply s x b defaultRed res

/-- The destructor `~AMGInverseOperator()`: if `first_` is cleared (at
least one `apply` happened) it runs `amg_->post(*x_)` on the captured
copy; otherwise it does nothing. -/
def AMGInverseOperator.destructorEvents (s : AMGInverseOperator R) :
    List (AMGEvent R) :=
  if s.first_ then [] else [AMGEvent.postCall (s.x_.getD [])]

variable (R)

/-- Input of one `apply` call in a run of consecutive calls. -/
structure CallInput where
  x : List R
  b : List R
  red : R
  res : InverseOperatorResult R
deriving DecidableEq

variable {R}

/-- Runs a list of consecutive `apply` calls on a handle, threading the
handle state and concatenating the event traces issued to the wrapped
AMG. -/
def runApplies (amgPre amgApply : List R → List R → List R × List R) :
    AMGInverseOperator R → List (CallInput R) →
    AMGInverseOperator R × List (AMGEvent R)
  | s, [] => (s, [])
  | s, c :: cs =>
      let o := AMGInverseOperator.apply amgPre amgApply s c.x c.b c.red c.res
      let r := runApplies amgPre amgApply o.state cs
      (r.1, o.events ++ r.2)

/-- Modelled from the spec: the `presmooth` helper (`smoother.hh`, an
external collaborator not in the source file; the source calls it for
both the pre- and the post-smoothing phase).  Per §4.4 each sweep updates
the working iterate and refreshes the working residual; the sweep itself
is the consumed black-box smoother capability, passed here as a map of
`(iterate, residual)` pairs iterated `steps` times. -/
def presmooth (smoother : List R × List R → List R × List R) :
    ℕ → List R × List R → List R × List R
  | 0, ur => ur
  | n + 1, ur => presmooth smoother n (smoother ur)

variable (R)

/-- State of a `TwoLevelMethod` preconditioner: the fine operator, the
fine smoother (the black-box sweep used by `presmooth`), the coarse
solver (the black box called as
`coarseSolver_->apply(lhs, rhs, res)`, abstracted as the map from the
coarse `(lhs, rhs)` pair to the updated coarse lhs it writes in place),
the transfer policy, and the pre- and post-smoothing step counts. -/
structure TwoLevelMethod where
  op : FineOperator R
  smoother : List R × List R → List R × List R
  coarseSolver : List R → List R → List R
  policy : AggregationLevelTransferPolicy R
  preSteps : ℕ
  postSteps : ℕ

/-- Everything `TwoLevelMethod::apply(v, d)` leaves behind on return: the
caller's vector `v`, the working iterate `u` and working residual `rhs`
as the call leaves them, the defect argument `d` on return, and the
transfer policy state. -/
structure ApplyResult where
  v : List R
  u : List R
  rhs : List R
  d : List R
  policy : AggregationLevelTransferPolicy R
deriving DecidableEq

variable {R}

/-- `TwoLevelMethod::apply(v, d)`: copies `v` into the working iterate
`u` and `d` into the working residual `rhs` (both locals), presmooths,
moves the residual to the coarse level, applies the coarse solver to the
policy's coarse lhs/rhs (the updated coarse lhs is written back into the
policy), prolongates the coarse lhs into `u` via `moveToFineLevel`, and
postsmooths (the source reuses `presmooth` for this phase).  No statement
of the body writes to `v` (the context's `update` pointer is bound to `v`
but the modelled smoothing sweep of §4.4 updates only the working iterate
and residual), and `d` is a `const` reference that is only read. -/
def TwoLevelMethod.apply (m : TwoLevelMethod R) (v d : List R) :
    Outcome (ApplyResult R) :=
  let u := v
  let rhs := d
  let ur1 := presmooth m.smoother m.preSteps (u, rhs)
  match m.policy.moveToCoarseLevel ur1.2 with
  | Outcome.assertionFailure => Outcome.assertionFailure
  | Outcome.undefinedBehaviour => Outcome.undefinedBehaviour
  | Outcome.ok p1 =>
      let clhs := m.coarseSolver p1.lhs p1.rhs
      let p2 := { p1 with lhs := clhs }
      match p2.moveToFineLevel ur1.1 with
      | Outcome.assertionFailure => Outcome.assertionFailure
      | Outcome.undefinedBehaviour => Outcome.undefinedBehaviour
      | Outcome.ok u2 =>
          let ur2 := presmooth m.smoother m.postSteps (u2, ur1.2)
          Outcome.ok
            { v := v, u := ur2.1, rhs := ur2.2, d := d, policy := p2 }

/-- The coarse-grid correction round trip of the adjointness property:
`moveToCoarseLevel` followed by an identity coarse solve (the coarse lhs
set equal to the coarse rhs) followed by `moveToFineLevel`. -/
def identityRoundTrip (pol : AggregationLevelTransferPolicy R)
    (fineResidual fineLhs : List R) : Outcome (List R) :=
  match pol.moveToCoarseLevel fineResidual with
  | Outcome.assertionFailure => Outcome.assertionFailure
  | Outcome.undefinedBehaviour => Outcome.undefinedBehaviour
  | Outcome.ok p1 =>
      ({ p1 with lhs := p1.rhs } :
        AggregationLevelTransferPolicy R).moveToFineLevel fineLhs

/-- A 1×1 identity fine operator over `ℤ`. -/
def fineOpId1 : FineOperator ℤ := { mat := [[1]] }

/-- A 2×2 fine operator over `ℤ` (a discrete 1-D Laplacian stencil). -/
def fineOp2 : FineOperator ℤ := { mat := [[2, -1], [-1, 2]] }

/-- Transfer policy over the 1×1 identity operator, with damping factor
1 and the single unknown in the single aggregate. -/
def polId1 : AggregationLevelTransferPolicy ℤ :=
  (AggregationLevelTransferPolicy.init ⟨1⟩).createCoarseLevelSystem
    fineOpId1 { map := [some 0], count := 1 }

/-- Transfer policy over the 2×2 operator, with damping factor 1 and
both unknowns collapsed into one aggregate. -/
def polPair : AggregationLevelTransferPolicy ℤ :=
  (AggregationLevelTransferPolicy.init ⟨1⟩).createCoarseLevelSystem
    fineOp2 { map := [some 0, some 0], count := 1 }

/-- A concrete two-level method over the 1×1 identity operator: no
smoothing steps, identity coarse solve (the smoother, being unused with
zero steps, is the identity sweep). -/
def tlmId1 : TwoLevelMethod ℤ :=
  { op := fineOpId1
    smoother := fun ur => ur
    coarseSolver := fun _ rhs => rhs
    policy := polId1
    preSteps := 0
    postSteps := 0 }

/-- The coarse matrix of the single-aggregate 1×1 example. -/
def coarseMatId1 : CoarseMat ℤ :=
  { rowCount := 1, colCount := 1, rows := [[1]] }

/-- What `tlmId1.apply [0] [1]` evaluates to: the caller's vector `v` is
left at `[0]` while the working iterate `u`, which absorbed the coarse
correction, is `[1]`. -/
def applyResultId1 : ApplyResult ℤ :=
  { v := [0]
    u := [1]
    rhs := [1]
    d := [1]
    policy :=
      { criterion := ⟨1⟩
        prolongDamp := 1
        aggregatesMap := some [some 0]
        matrix := some coarseMatId1
        coarseOp := some coarseMatId1
        lhs := [1]
        rhs := [1] } }

lemma aggregateSum_nil (fine : List R) (a : ℕ) :
    aggregateSum [] fine a = 0 := rfl

lemma aggregateSum_cons (o : Option ℕ) (rest : List (Option ℕ)) (x : R)
    (xs : List R) (a : ℕ) :
    aggregateSum (o :: rest) (x :: xs) a =
      (if o = some a then x else 0) + aggregateSum rest xs a := by
  by_cases h : o = some a <;> simp [aggregateSum, h]

lemma aggregateSum_replicate (agg : List (Option ℕ)) (c : R) (a : ℕ) :
    aggregateSum agg (List.replicate agg.length c) a =
      (agg.count (some a) : R) * c := by
  induction agg with
  | nil => simp [aggregateSum]
  | cons o rest ih =>
      rw [List.length_cons, List.replicate_succ, aggregateSum_cons, ih]
      by_cases h : o = some a <;> simp [List.count_cons, h] <;> ring

lemma restrictVector_getD (agg : List (Option ℕ)) (numAgg : ℕ)
    (fine : List R) (a : ℕ) (ha : a < numAgg) :
    (restrictVector agg numAgg fine).getD a 0 = aggregateSum agg fine a := by
  unfold restrictVector
  rw [List.getD_eq_getElem?_getD, List.getElem?_map]
  simp [List.getElem?_range ha]

lemma restrictVector_length (agg : List (Option ℕ)) (numAgg : ℕ)
    (fine : List R) : (restrictVector agg numAgg fine).length = numAgg := by
  simp [restrictVector]

lemma prolongateVector_length (agg : List (Option ℕ)) (coarse : List R)
    (fine : List R) (damp : R) :
    (prolongateVector agg coarse fine damp).length =
      min agg.length fine.length := by
  simp [prolongateVector]

lemma prolongateVector_getD (agg : List (Option ℕ)) (coarse : List R)
    (fine : List R) (damp : R) (i : ℕ) (hi : i < agg.length)
    (hf : i < fine.length) :
    (prolongateVector agg coarse fine damp).getD i 0 =
      (match agg.getD i none with
       | some a => fine.getD i 0 + damp * coarse.getD a 0
       | none => fine.getD i 0) := by
  induction agg generalizing fine i with
  | nil => exact absurd hi (by simp)
  | cons o rest ih =>
      cases fine with
      | nil => exact absurd hf (by simp)
      | cons x xs =>
          cases i with
          | zero => cases o <;> simp [prolongateVector]
          | succ j =>
              have := ih xs j (by simpa using hi) (by simpa using hf)
              simpa [prolongateVector] using this

lemma map_zero_eq_replicate (l : List R) :
    (l.map (fun _ => (0 : R))) = List.replicate l.length 0 := by
  induction l <;> simp [List.replicate_succ, *]

lemma moveToCoarseLevel_eq (q : AggregationLevelTransferPolicy R)
    (agg : List (Option ℕ)) (fine : List R)
    (hmap : q.aggregatesMap = some agg) :
    q.moveToCoarseLevel fine =
      Outcome.ok
        { q with
          rhs := restrictVector agg q.rhs.length fine
          lhs := q.lhs.map (fun _ => 0) } := by
  unfold AggregationLevelTransferPolicy.moveToCoarseLevel
  rw [hmap]

lemma moveToFineLevel_eq (q : AggregationLevelTransferPolicy R)
    (agg : List (Option ℕ)) (fineLhs : List R)
    (hmap : q.aggregatesMap = some agg) :
    q.moveToFineLevel fineLhs =
      Outcome.ok (prolongateVector agg q.lhs fineLhs q.prolongDamp) := by
  unfold AggregationLevelTransferPolicy.moveToFineLevel
  rw [hmap]

lemma identityRoundTrip_eq (q : AggregationLevelTransferPolicy R)
    (agg : List (Option ℕ)) (fineRes fineLhs : List R)
    (hmap : q.aggregatesMap = some agg) :
    identityRoundTrip q fineRes fineLhs =
      Outcome.ok (prolongateVector agg
        (restrictVector agg q.rhs.length fineRes) fineLhs q.prolongDamp) := by
  unfold identityRoundTrip
  rw [moveToCoarseLevel_eq q agg fineRes hmap]
  exact moveToFineLevel_eq
    { q with
      rhs := restrictVector agg q.rhs.length fineRes
      lhs := restrictVector agg q.rhs.length fineRes } agg fineLhs hmap

lemma getD_replicate_self (n i : ℕ) (x : R) :
    (List.replicate n x).getD i x = x := by
  induction n generalizing i with
  | zero => simp
  | succ k ih => cases i <;> simp [List.replicate_succ, ih]

lemma runApplies_inactive (amgPre amgApply : List R → List R → List R × List R)
    (s : AMGInverseOperator R) (hs : s.first_ = false) :
    ∀ cs : List (CallInput R),
      (runApplies amgPre amgApply s cs).1 = s ∧
      ∀ e ∈ (runApplies amgPre amgApply s cs).2, e = AMGEvent.applyCall
  | [] => by simp [runApplies]
  | c :: cs => by
      have ih := runApplies_inactive amgPre amgApply s hs cs
      simp only [runApplies, AMGInverseOperator.apply, hs,
        Bool.false_eq_true, if_false]
      refine ⟨ih.1, ?_⟩
      intro e he
      simp only [List.cons_append, List.nil_append, List.mem_cons] at he
      cases he with
      | inl h => exact h
      | inr h => exact ih.2 e h

/-- C8: after `createCoarseLevelSystem`, the coarse operator holds the
Galerkin product matrix, whose row and column dimensions both equal the
renumbered aggregate count; the internal coarse lhs has length equal to
the coarse matrix's column count and the internal coarse rhs has length
equal to its row count. -/
theorem createCoarseLevelSystem_sizes (pol : AggregationLevelTransferPolicy R)
    (fineOp : FineOperator R) (aggRes : AggregationResult) :
    (pol.createCoarseLevelSystem fineOp aggRes).coarseOp =
      some (galerkinProduct fineOp.mat aggRes.map aggRes.count) ∧
    (galerkinProduct (R := R) fineOp.mat aggRes.map aggRes.count).N =
      aggRes.count ∧
    (galerkinProduct (R := R) fineOp.mat aggRes.map aggRes.count).M =
      aggRes.count ∧
    (pol.createCoarseLevelSystem fineOp aggRes).lhs.length =
      (galerkinProduct (R := R) fineOp.mat aggRes.map aggRes.count).M ∧
    (pol.createCoarseLevelSystem fineOp aggRes).rhs.length =
      (galerkinProduct (R := R) fineOp.mat aggRes.map aggRes.count).N := by
  refine ⟨rfl, rfl, rfl, ?_, ?_⟩ <;>
    simp [AggregationLevelTransferPolicy.createCoarseLevelSystem]

/-- C9, counterexample: on a freshly constructed policy (no
`createCoarseLevelSystem` yet) the transfer operations hit unguarded
undefined behaviour (a null `shared_ptr` dereference), not a defensive
assertion failure, contradicting the claim that a defensive assertion is
triggered. -/
theorem premature_transfer_counterexample :
    (AggregationLevelTransferPolicy.init (R := ℤ) ⟨1⟩).moveToCoarseLevel [1] =
      Outcome.undefinedBehaviour ∧
    (AggregationLevelTransferPolicy.init (R := ℤ) ⟨1⟩).moveToFineLevel [1] =
      Outcome.undefinedBehaviour ∧
    (Outcome.undefinedBehaviour :
      Outcome (AggregationLevelTransferPolicy ℤ)) ≠ Outcome.assertionFailure ∧
    (Outcome.undefinedBehaviour : Outcome (List ℤ)) ≠
      Outcome.assertionFailure := by
  exact ⟨rfl, rfl, by decide, by decide⟩

/-- C9, amended: calling `moveToCoarseLevel` or `moveToFineLevel` before
`createCoarseLevelSystem` dereferences the null aggregates-map pointer:
unguarded undefined behaviour, with no defensive assertion present. -/
theorem premature_transfer_is_undefined_behaviour (crit : Criterion R)
    (fineRhs fineLhs : List R) :
    (AggregationLevelTransferPolicy.init crit).moveToCoarseLevel fineRhs =
      Outcome.undefinedBehaviour ∧
    (AggregationLevelTransferPolicy.init crit).moveToFineLevel fineLhs =
      Outcome.undefinedBehaviour :=
  ⟨rfl, rfl⟩

/-- C5: `moveToCoarseLevel` restricts the fine residual into the coarse
rhs (each aggregate's value is the sum of the fine components over its
unknowns), zeroes the coarse lhs, is idempotent on identical input, and
changes no other part of the policy state. -/
theorem moveToCoarseLevel_restricts_and_zeroes
    (pol : AggregationLevelTransferPolicy R) (agg : List (Option ℕ))
    (fine : List R) (p1 : AggregationLevelTransferPolicy R)
    (hmap : pol.aggregatesMap = some agg)
    (h : pol.moveToCoarseLevel fine = Outcome.ok p1) :
    p1.rhs.length = pol.rhs.length ∧
    (∀ a, a < pol.rhs.length → p1.rhs.getD a 0 = aggregateSum agg fine a) ∧
    p1.lhs = List.replicate pol.lhs.length 0 ∧
    p1.moveToCoarseLevel fine = Outcome.ok p1 ∧
    p1.aggregatesMap = pol.aggregatesMap ∧
    p1.matrix = pol.matrix ∧
    p1.coarseOp = pol.coarseOp ∧
    p1.prolongDamp = pol.prolongDamp ∧
    p1.criterion = pol.criterion := by
  rw [moveToCoarseLevel_eq pol agg fine hmap] at h
  simp only [Outcome.ok.injEq] at h
  subst h
  refine ⟨?_, ?_, ?_, ?_, rfl, rfl, rfl, rfl, rfl⟩
  · exact restrictVector_length agg pol.rhs.length fine
  · intro a ha
    exact restrictVector_getD agg pol.rhs.length fine a ha
  · exact map_zero_eq_replicate pol.lhs
  · rw [moveToCoarseLevel_eq
      { pol with
        rhs := restrictVector agg pol.rhs.length fine
        lhs := pol.lhs.map (fun _ => 0) } agg fine hmap]
    simp only [Outcome.ok.injEq]
    simp [restrictVector_length, List.map_map, Function.comp]

/-- C5, witness: on the concrete two-unknown, one-aggregate policy the
restricted rhs is the component sum `[3]`, the lhs is zeroed, and a
second identical call reproduces the identical state. -/
theorem moveToCoarseLevel_restricts_and_zeroes_witness :
    ({ polPair with rhs := [3], lhs := [0] } :
        AggregationLevelTransferPolicy ℤ).moveToCoarseLevel [1, 2] =
      Outcome.ok { polPair with rhs := [3], lhs := [0] } :=
  (moveToCoarseLevel_restricts_and_zeroes polPair [some 0, some 0] [1, 2]
    { polPair with rhs := [3], lhs := [0] } (by decide) (by decide)).2.2.2.1

/-- C4: after `createCoarseLevelSystem` (which fixes the damping factor
to the criterion's configured prolongation damping factor) and a coarse
solve that left `coarseLhs` in the policy, `moveToFineLevel` adds
`dampingFactor × coarseLhs[aggregate(i)]` to entry `i` of the fine lhs
for every unknown `i` with an aggregate, leaves every skipped unknown's
entry unchanged, and preserves the vector's length. -/
theorem moveToFineLevel_adds_damped_correction
    (pol : AggregationLevelTransferPolicy R) (fineOp : FineOperator R)
    (aggRes : AggregationResult) (coarseLhs fineLhs out : List R) (i : ℕ)
    (hlen : aggRes.map.length = fineLhs.length) (hi : i < fineLhs.length)
    (h : ({ pol.createCoarseLevelSystem fineOp aggRes with
        lhs := coarseLhs } :
        AggregationLevelTransferPolicy R).moveToFineLevel fineLhs =
      Outcome.ok out) :
    out.length = fineLhs.length ∧
    (∀ a, aggRes.map.getD i none = some a →
      out.getD i 0 = fineLhs.getD i 0 +
        pol.criterion.getProlongationDampingFactor * coarseLhs.getD a 0) ∧
    (aggRes.map.getD i none = none → out.getD i 0 = fineLhs.getD i 0) := by
  have h2 : Outcome.ok (prolongateVector aggRes.map coarseLhs fineLhs
      pol.criterion.getProlongationDampingFactor) = Outcome.ok out := h
  simp only [Outcome.ok.injEq] at h2
  subst h2
  refine ⟨?_, ?_, ?_⟩
  · rw [prolongateVector_length, hlen, Nat.min_self]
  · intro a ha
    have hp := prolongateVector_getD aggRes.map coarseLhs fineLhs
      pol.criterion.getProlongationDampingFactor i (by omega) hi
    rw [ha] at hp
    simpa using hp
  · intro ha
    have hp := prolongateVector_getD aggRes.map coarseLhs fineLhs
      pol.criterion.getProlongationDampingFactor i (by omega) hi
    rw [ha] at hp
    simpa using hp

/-- C4, witness: with damping factor 3, coarse lhs `[4]`, aggregates map
`[some 0, none]` and fine lhs `[10, 20]`, entry 0 becomes
`10 + 3 × 4 = 22`. -/
theorem moveToFineLevel_adds_damped_correction_witness :
    ([22, 20] : List ℤ).getD 0 0 =
      ([10, 20] : List ℤ).getD 0 0 +
        (AggregationLevelTransferPolicy.init
            (R := ℤ) ⟨3⟩).criterion.getProlongationDampingFactor *
          ([4] : List ℤ).getD 0 0 :=
  (moveToFineLevel_adds_damped_correction
      (AggregationLevelTransferPolicy.init ⟨3⟩) fineOp2
      { map := [some 0, none], count := 1 } [4] [10, 20] [22, 20] 0
      (by decide) (by decide) (by decide)).2.1 0 (by decide)

/-- C2: across any nonempty run of consecutive `apply` calls on a fresh
coarse solver handle followed by its destruction, the wrapped AMG's
`pre` is issued exactly once (during the first call, which also captures
the private copy of the iterate as it stands after `pre`), and `post` is
issued exactly once, only by the destructor, on that captured copy; on a
handle destroyed without any `apply`, neither `pre` nor `post` is ever
issued. -/
theorem coarse_solver_one_shot_setup_teardown
    (amgPre amgApply : List R → List R → List R × List R)
    (c : CallInput R) (cs : List (CallInput R)) :
    ((runApplies amgPre amgApply AMGInverseOperator.mk0 (c :: cs)).2 ++
        (runApplies amgPre amgApply AMGInverseOperator.mk0
          (c :: cs)).1.destructorEvents).countP
        (fun e => AMGEvent.isPre e) = 1 ∧
    ((runApplies amgPre amgApply AMGInverseOperator.mk0 (c :: cs)).2 ++
        (runApplies amgPre amgApply AMGInverseOperator.mk0
          (c :: cs)).1.destructorEvents).countP
        (fun e => AMGEvent.isPost e) = 1 ∧
    (runApplies amgPre amgApply AMGInverseOperator.mk0 (c :: cs)).2.countP
        (fun e => AMGEvent.isPost e) = 0 ∧
    (AMGInverseOperator.apply amgPre amgApply AMGInverseOperator.mk0
        c.x c.b c.red c.res).events.countP (fun e => AMGEvent.isPre e) = 1 ∧
    (runApplies amgPre amgApply AMGInverseOperator.mk0 (c :: cs)).1.x_ =
      some (amgPre c.x c.b).1 ∧
    (runApplies amgPre amgApply AMGInverseOperator.mk0
        (c :: cs)).1.destructorEvents =
      [AMGEvent.postCall (amgPre c.x c.b).1] ∧
    (runApplies amgPre amgApply AMGInverseOperator.mk0 [] :
        AMGInverseOperator R × List (AMGEvent R)).2 ++
      (runApplies amgPre amgApply AMGInverseOperator.mk0
        []).1.destructorEvents = [] := by
  have hrun : runApplies amgPre amgApply AMGInverseOperator.mk0 (c :: cs) =
      ((runApplies amgPre amgApply
          (⟨false, some (amgPre c.x c.b).1⟩ : AMGInverseOperator R) cs).1,
        AMGEvent.preCall :: AMGEvent.applyCall ::
          (runApplies amgPre amgApply
            (⟨false, some (amgPre c.x c.b).1⟩ : AMGInverseOperator R)
            cs).2) := by
    simp [runApplies, AMGInverseOperator.apply, AMGInverseOperator.mk0]
  have htail := runApplies_inactive amgPre amgApply
    (⟨false, some (amgPre c.x c.b).1⟩ : AMGInverseOperator R) rfl cs
  have hpre0 : (runApplies amgPre amgApply
      (⟨false, some (amgPre c.x c.b).1⟩ : AMGInverseOperator R)
      cs).2.countP (fun e => AMGEvent.isPre e) = 0 :=
    List.countP_eq_zero.mpr
      (fun e he => by rw [htail.2 e he]; simp [AMGEvent.isPre])
  have hpost0 : (runApplies amgPre amgApply
      (⟨false, some (amgPre c.x c.b).1⟩ : AMGInverseOperator R)
      cs).2.countP (fun e => AMGEvent.isPost e) = 0 :=
    List.countP_eq_zero.mpr
      (fun e he => by rw [htail.2 e he]; simp [AMGEvent.isPost])
  have hdesA : (runApplies amgPre amgApply
      (⟨false, some (amgPre c.x c.b).1⟩ : AMGInverseOperator R)
      cs).1.destructorEvents =
      [AMGEvent.postCall (amgPre c.x c.b).1] := by
    rw [htail.1]
    rfl
  have hdes : (runApplies amgPre amgApply AMGInverseOperator.mk0
      (c :: cs)).1.destructorEvents =
      [AMGEvent.postCall (amgPre c.x c.b).1] := by
    rw [hrun, htail.1]
    rfl
  refine ⟨?_, ?_, ?_, ?_, ?_, hdes, rfl⟩
  · simp only [hrun, hdesA, List.cons_append, List.nil_append,
      List.countP_cons, List.countP_append, List.countP_nil]
    rw [hpre0]
    simp [AMGEvent.isPre]
  · simp only [hrun, hdesA, List.cons_append, List.nil_append,
      List.countP_cons, List.countP_append, List.countP_nil]
    rw [hpost0]
    simp [AMGEvent.isPost]
  · simp only [hrun, List.countP_cons]
    rw [hpost0]
    simp [AMGEvent.isPost]
  · simp [AMGInverseOperator.apply, AMGInverseOperator.mk0,
      List.countP_cons, AMGEvent.isPre]
  · rw [hrun, htail.1]

/-- C6: `AMGInverseOperator::apply` produces an output (handle state,
iterate, right hand side, diagnostics, event trace) that is entirely
independent of the requested reduction value, in either overload, and
every call issues exactly one application of the wrapped AMG solver. -/
theorem apply_ignores_reduction
    (amgPre amgApply : List R → List R → List R × List R)
    (s : AMGInverseOperator R) (x b : List R) (red1 red2 : R)
    (res : InverseOperatorResult R) :
    AMGInverseOperator.apply amgPre amgApply s x b red1 res =
      AMGInverseOperator.apply amgPre amgApply s x b red2 res ∧
    AMGInverseOperator.applyDefault amgPre amgApply red1 s x b res =
      AMGInverseOperator.apply amgPre amgApply s x b red2 res ∧
    (AMGInverseOperator.apply amgPre amgApply s x b red1 res).events.countP
      (fun e => AMGEvent.isApply e) = 1 := by
  refine ⟨rfl, rfl, ?_⟩
  by_cases hs : s.first_ <;>
    simp [AMGInverseOperator.apply, hs, List.countP_cons, AMGEvent.isApply]

/-- C7, counterexample: two calls identical except for the incoming
`res` argument return exactly their respective incoming `res` values,
which differ — so `apply` writes no convergence diagnostics into the
result argument. -/
theorem apply_res_counterexample :
    (AMGInverseOperator.apply (R := ℤ) (fun x b => (x, b)) (fun x b => (x, b))
        AMGInverseOperator.mk0 [0] [1] 1 ⟨5, 2, true⟩).res = ⟨5, 2, true⟩ ∧
    (AMGInverseOperator.apply (R := ℤ) (fun x b => (x, b)) (fun x b => (x, b))
        AMGInverseOperator.mk0 [0] [1] 1 ⟨0, 7, false⟩).res = ⟨0, 7, false⟩ ∧
    (⟨5, 2, true⟩ : InverseOperatorResult ℤ) ≠ ⟨0, 7, false⟩ :=
  ⟨rfl, rfl, by decide⟩

/-- C7, amended: every call to either `apply` overload returns with the
`res` argument exactly as it was passed in; no convergence diagnostics
are written, so the caller cannot observe the coarse solve's convergence
from it. -/
theorem apply_leaves_res_unchanged
    (amgPre amgApply : List R → List R → List R × List R)
    (s : AMGInverseOperator R) (x b : List R) (red : R)
    (res : InverseOperatorResult R) :
    (AMGInverseOperator.apply amgPre amgApply s x b red res).res = res ∧
    (AMGInverseOperator.applyDefault amgPre amgApply red s x b res).res =
      res := by
  constructor <;> by_cases hs : s.first_ <;>
    simp [AMGInverseOperator.apply, AMGInverseOperator.applyDefault, hs]

/-- C3, counterexample: on the policy whose single aggregate has two
unknowns (damping factor 1), the residual constant 1 restricts to the
sum 2, and the identity coarse solve prolongates 2 back to both
unknowns: the round trip yields `[2, 2]`, not the constant `[1, 1]`
the claim requires. -/
theorem identityRoundTrip_counterexample :
    identityRoundTrip polPair [1, 1] [0, 0] = Outcome.ok [2, 2] ∧
    (Outcome.ok [2, 2] : Outcome (List ℤ)) ≠ Outcome.ok [1, 1] :=
  ⟨by decide, by decide⟩

/-- C3, amended: for a fine residual constant `c` on every aggregate,
`moveToCoarseLevel` followed by an identity coarse solve and
`moveToFineLevel` (damping factor 1, zero initial fine lhs) yields, on
every fine unknown of an aggregate, the aggregate's cardinality times
`c` (hence `c` itself exactly on singleton aggregates). -/
theorem identityRoundTrip_scales_by_aggregate_size
    (pol : AggregationLevelTransferPolicy R) (agg : List (Option ℕ))
    (c : R) (i a : ℕ) (out : List R)
    (hmap : pol.aggregatesMap = some agg)
    (hdamp : pol.prolongDamp = 1)
    (hi : i < agg.length)
    (ha : agg.getD i none = some a)
    (hbound : a < pol.rhs.length)
    (h : identityRoundTrip pol (List.replicate agg.length c)
        (List.replicate agg.length 0) = Outcome.ok out) :
    out.getD i 0 = (agg.count (some a) : R) * c := by
  rw [identityRoundTrip_eq pol agg _ _ hmap] at h
  simp only [Outcome.ok.injEq] at h
  subst h
  rw [prolongateVector_getD agg _ _ _ i hi (by simpa using hi)]
  rw [ha]
  simp only [hdamp]
  rw [restrictVector_getD agg pol.rhs.length _ a hbound,
    aggregateSum_replicate, getD_replicate_self]
  ring

/-- C3, witness for the amended claim: on the two-unknown single
aggregate with residual constant 5, the round trip yields
`2 × 5 = 10` on unknown 0. -/
theorem identityRoundTrip_scales_witness :
    ([10, 10] : List ℤ).getD 0 0 =
      (([some 0, some 0] : List (Option ℕ)).count (some 0) : ℤ) * 5 :=
  identityRoundTrip_scales_by_aggregate_size polPair [some 0, some 0] 5 0 0
    [10, 10] (by decide) (by decide) (by decide) (by decide) (by decide)
    (by decide)

/-- C1: evaluating `TwoLevelMethod::apply` at a concrete failing input
(1×1 identity operator, single aggregate, damping 1, exact coarse solve,
no smoothing steps, `v = [0]`, `d = [1]`): the call returns with the
caller's vector `v` still `[0]` while the working iterate `u`, which
received the coarse correction, is `[1]` — the updated iterate is never
written back into `v`. -/
theorem apply_discards_coarse_correction :
    tlmId1.apply [0] [1] = Outcome.ok applyResultId1 ∧
    applyResultId1.v = [0] ∧
    applyResultId1.u = [1] ∧
    applyResultId1.v ≠ applyResultId1.u :=
  ⟨by decide, rfl, rfl, by decide⟩

/-- C10: `TwoLevelMethod::apply(v, d)` leaves the defect argument `d`
unchanged on return: it is copied into the working residual at entry and
every residual update acts on that copy. -/
theorem apply_preserves_defect (m : TwoLevelMethod R) (v d : List R)
    (r : ApplyResult R) (h : m.apply v d = Outcome.ok r) : r.d = d := by
  simp only [TwoLevelMethod.apply] at h
  split at h
  · simp at h
  · simp at h
  · split at h
    · simp at h
    · simp at h
    · simp only [Outcome.ok.injEq] at h
      subst h
      rfl

/-- C10, witness: on the concrete two-level method, `apply [0] [1]`
returns a result whose defect component is still `[1]`. -/
theorem apply_preserves_defect_witness : applyResultId1.d = [1] :=
  apply_preserves_defect tlmId1 [0] [1] applyResultId1 (by decide)

end TwoLevel
